import Mathlib

/-!
Shallow embedding of the two scripts of the `exif-tools` repository
(`src/dedup.py` and `src/sort.py`) together with proofs about the
properties their specification states.

Directory contents are modelled as lists of entries (name, directory
flag, and for the deduplicator a per-entry flag telling whether
`os.remove` succeeds on it).  The metadata readers of the external
libraries (PIL/piexif/hachoir) are modelled as oracle parameters;
Python exceptions are modelled with `Except` over an abstract
exception-kind type.  Python's decimal rendering of an integer
(`str(counter)`) is embedded as `decRepr`, `str.lower` as `pyLower`
(character-wise ASCII lowering), `str.endswith` as `pyEndsWith` and
`os.path.splitext` as `splitExt`.
-/

namespace ExifTools

/-! ### Python string primitives -/

/-- Decimal digits of `n`, most significant first, driven by explicit fuel
so that the definition is structural and evaluates inside the kernel. -/
def decReprAux : Nat → Nat → List Char
  | 0, _ => []
  | fuel+1, n =>
    if n < 10 then [Nat.digitChar n]
    else decReprAux fuel (n / 10) ++ [Nat.digitChar (n % 10)]

/-- Decimal rendering of a natural number: the embedding of Python `str(n)`
for a non-negative integer `n`. -/
def decRepr (n : Nat) : String := ⟨decReprAux (n + 1) n⟩

/-- Numeric value of a decimal digit character. -/
def digitVal (c : Char) : Nat := c.toNat - 48

/-- Value of a digit list read as a decimal numeral. -/
def decVal (cs : List Char) : Nat := cs.foldl (fun a c => a * 10 + digitVal c) 0

/-- Character-wise ASCII lowering: the embedding of Python `str.lower`. -/
def pyLower (s : String) : String := ⟨s.data.map Char.toLower⟩

/-- Embedding of Python `str.endswith`. -/
def pyEndsWith (s suf : String) : Bool := suf.data.isSuffixOf s.data

/-- Index of the last '.' in a character list, if any. -/
def lastDot : List Char → Option Nat
  | [] => none
  | c :: cs =>
    match lastDot cs with
    | some i => some (i + 1)
    | none => if c = '.' then some 0 else none

/-- Embedding of Python `os.path.splitext` on a bare file name (no path
separators): the extension starts at the last dot, except that a name
whose characters before that dot are all dots (e.g. `".mov"`) has no
extension. -/
def splitExt (s : String) : String × String :=
  match lastDot s.data with
  | none => (s, "")
  | some d =>
    if (s.data.take d).all (fun c => c = '.') then (s, "")
    else (⟨s.data.take d⟩, ⟨s.data.drop d⟩)

/-- Lowercased extension of a file name (`os.path.splitext(...)[1].lower()`). -/
def extOf (name : String) : String := pyLower (splitExt name).2

/-- Base name of a file name (`os.path.splitext(...)[0]`), case preserved. -/
def baseOf (name : String) : String := (splitExt name).1

/-! ### dedup.py -/

/-- A directory entry as seen by `remove_duplicate_mov_files`: its name,
whether it is a directory, and whether `os.remove` would succeed on it
(false models a per-file deletion failure such as a permission error). -/
structure Entry where
  name : String
  isDir : Bool
  removeOk : Bool
deriving DecidableEq, Repr

/-- The fixed image-extension list of `dedup.py`. -/
def imageExtensions : List String :=
  [".jpg", ".jpeg", ".png", ".gif", ".bmp", ".tiff", ".webp", ".heic"]

/-- Contribution of one entry to the first pass of
`remove_duplicate_mov_files`: the base name of a non-directory entry
whose lowercased extension is an image extension, nothing otherwise. -/
def imgName (f : Entry) : Option String :=
  if f.isDir then none
  else if extOf f.name ∈ imageExtensions then some (baseOf f.name)
  else none

/-- First pass of `remove_duplicate_mov_files`: base names of the
non-directory entries whose lowercased extension is an image extension. -/
def imageBaseNames (files : List Entry) : List String :=
  files.filterMap imgName

/-- Decision taken for one entry in the second pass of
`remove_duplicate_mov_files`: `some true` means the entry is a
non-directory `.mov` whose base name matches an image and whose deletion
succeeds (counted as removed); `some false` means it is a non-directory
`.mov` that is kept (no matching image, or the deletion raised and was
caught); `none` means the entry is not a non-directory `.mov` and is not
counted at all. -/
def movStep (imgs : List String) (f : Entry) : Option Bool :=
  if f.isDir then none
  else if extOf f.name = ".mov" then
    if baseOf f.name ∈ imgs then
      if f.removeOk then some true else some false
    else some false
  else none

/-- Second pass of `remove_duplicate_mov_files`: removed count, skipped
count and the names of the entries actually deleted, in listing order. -/
def dedupPass (imgs : List String) : List Entry → Nat × Nat × List String
  | [] => (0, 0, [])
  | f :: fs =>
    let rest := dedupPass imgs fs
    match movStep imgs f with
    | some true => (rest.1 + 1, rest.2.1, f.name :: rest.2.2)
    | some false => (rest.1, rest.2.1 + 1, rest.2.2)
    | none => rest

/-- Outcome of one run of the duplicate remover: the two counts it
returns, the names it deleted, and the directory contents afterwards. -/
structure DedupRun where
  removed : Nat
  skipped : Nat
  removedNames : List String
  survivors : List Entry
deriving DecidableEq, Repr

/-- Embedding of `remove_duplicate_mov_files`: collect the image base
names over the listing, then decide every non-directory `.mov` entry
against that complete set.  The surviving entries are those whose name
was not deleted. -/
def remove_duplicate_mov_files (files : List Entry) : DedupRun :=
  let imgs := imageBaseNames files
  let p := dedupPass imgs files
  ⟨p.1, p.2.1, p.2.2, files.filter (fun f => decide (f.name ∉ p.2.2))⟩

/-! ### sort.py: timestamps and name formatting -/

/-- A naive calendar date-time as carried by `datetime.datetime` here
(no timezone, no sub-second precision is used by the scripts). -/
structure PDateTime where
  year : Nat
  month : Nat
  day : Nat
  hour : Nat
  minute : Nat
  second : Nat
deriving DecidableEq, Repr

/-- Zero-pad a number to two digits, as `strftime` does for
`%m %d %H %M %S`. -/
def pad2 (n : Nat) : String := if n < 10 then "0" ++ decRepr n else decRepr n

/-- Zero-pad a number to four digits, as `strftime` does for `%Y`. -/
def pad4 (n : Nat) : String :=
  if n < 10 then "000" ++ decRepr n
  else if n < 100 then "00" ++ decRepr n
  else if n < 1000 then "0" ++ decRepr n
  else decRepr n

/-- Embedding of `format_filename`: `dt.strftime("%Y%m%d_%H%M%S")`. -/
def format_filename (dt : PDateTime) : String :=
  pad4 dt.year ++ pad2 dt.month ++ pad2 dt.day ++ "_" ++
    pad2 dt.hour ++ pad2 dt.minute ++ pad2 dt.second

/-! ### sort.py: metadata extractors -/

/-- Abstract kinds of Python exceptions relevant to `sort.py`.  The first
four are exactly the types caught around the primary image-decoding path;
`valueError` and `typeError` are what `strptime` raises on a malformed
date; `otherError` stands for any further `Exception` subclass. -/
inductive PyExc where
  | unidentifiedImageError
  | attributeError
  | keyError
  | osError
  | valueError
  | typeError
  | otherError
deriving DecidableEq, Repr

/-- A raw date-tag value as handed to `strptime`: either a string in the
exact `"%Y:%m:%d %H:%M:%S"` format (carrying its parsed value) or a value
`strptime` rejects (wrong format or wrong type). -/
inductive DateVal where
  | wellFormed (dt : PDateTime)
  | malformed
deriving DecidableEq, Repr

/-- Result of `strptime` under the surrounding `except (ValueError,
TypeError)`: a malformed value yields no timestamp. -/
def parseDateVal : DateVal → Option PDateTime
  | .wellFormed dt => some dt
  | .malformed => none

/-- The EXIF mapping returned by `image._getexif()`, restricted to the two
tags the script reads: tag 36867 (DateTimeOriginal) and tag 306
(DateTime).  `none` models an absent (or falsy) tag. -/
structure ExifData where
  dateTimeOriginal : Option DateVal
  dateTime : Option DateVal
deriving DecidableEq, Repr

/-- The piexif dictionary as read by the fallback path: tag 36867 in the
"Exif" IFD and tag 306 in the "0th" IFD. -/
structure PiexifData where
  exifDateTimeOriginal : Option DateVal
  zerothDateTime : Option DateVal
deriving DecidableEq, Repr

/-- The exception types caught around the primary image-decoding path:
`except (UnidentifiedImageError, AttributeError, KeyError, OSError)`. -/
def primaryCaught : PyExc → Bool
  | .unidentifiedImageError => true
  | .attributeError => true
  | .keyError => true
  | .osError => true
  | _ => false

/-- Embedding of `get_image_date_taken`.  `primary` is the outcome of
`Image.open` + `_getexif()` (an exception, `None`, or EXIF data);
`piexifLoad` is the outcome of `piexif.load`.  The returned value is
`.ok o` when the function returns the optional timestamp `o`, and
`.error e` when the exception `e` propagates to the caller. -/
def get_image_date_taken (primary : Except PyExc (Option ExifData))
    (piexifLoad : Except PyExc PiexifData) : Except PyExc (Option PDateTime) :=
  match primary with
  | .ok none => .ok none
  | .ok (some exif) =>
    match exif.dateTimeOriginal with
    | some v => .ok (parseDateVal v)
    | none =>
      match exif.dateTime with
      | some v => .ok (parseDateVal v)
      | none => .ok none
  | .error e =>
    if primaryCaught e then
      match piexifLoad with
      | .error _ => .ok none
      | .ok p =>
        match p.exifDateTimeOriginal with
        | some v => .ok (parseDateVal v)
        | none =>
          match p.zerothDateTime with
          | some v => .ok (parseDateVal v)
          | none => .ok none
    else .error e

/-- A hachoir metadata field value: either an actual
`datetime.datetime` or a value of some other type. -/
inductive HField where
  | datetimeVal (dt : PDateTime)
  | otherVal
deriving DecidableEq, Repr

/-- The hachoir metadata object, restricted to the three creation-date
attributes the script probes; `none` models `hasattr` being false. -/
structure HMeta where
  creation_date : Option HField
  date_time_original : Option HField
  datetime_original : Option HField
deriving DecidableEq, Repr

/-- `getattr`-by-name on the modelled hachoir metadata object. -/
def getField (m : HMeta) : String → Option HField
  | "creation_date" => m.creation_date
  | "date_time_original" => m.date_time_original
  | "datetime_original" => m.datetime_original
  | _ => none

/-- The fixed priority list of creation-date fields probed by
`get_video_date_taken`. -/
def videoDateFields : List String :=
  ["creation_date", "date_time_original", "datetime_original"]

/-- The field loop of `get_video_date_taken`: return the first listed
attribute that exists and whose value is a `datetime.datetime`; an
attribute that exists with a non-datetime value is skipped. -/
def fieldSearch (m : HMeta) : List String → Option PDateTime
  | [] => none
  | f :: fs =>
    match getField m f with
    | some (.datetimeVal dt) => some dt
    | some .otherVal => fieldSearch m fs
    | none => fieldSearch m fs

/-- Embedding of `get_video_date_taken`.  `load` is the combined outcome
of `createParser` and `extractMetadata`: an exception (whatever its
type, the surrounding `except Exception` catches it), `none` when either
returns a falsy value, or the metadata object. -/
def get_video_date_taken (load : Except PyExc (Option HMeta)) :
    Except PyExc (Option PDateTime) :=
  match load with
  | .error _ => .ok none
  | .ok none => .ok none
  | .ok (some m) => .ok (fieldSearch m videoDateFields)

/-! ### sort.py: dispatch and directory processing -/

/-- The image-extension list of `get_media_date_taken`. -/
def imageSortExts : List String :=
  [".jpg", ".jpeg", ".png", ".gif", ".bmp", ".tiff", ".webp"]

/-- The video-extension list of `get_media_date_taken`. -/
def videoSortExts : List String :=
  [".mp4", ".mov", ".avi", ".mkv", ".wmv", ".flv", ".webm"]

/-- The classification outcome of `get_media_date_taken`'s suffix tests. -/
inductive MediaKind where
  | image
  | video
  | other
deriving DecidableEq, Repr

/-- Suffix-based classification of `get_media_date_taken`: lowercase the
path, test the image suffixes first, then the video suffixes. -/
def classifyMedia (path : String) : MediaKind :=
  if imageSortExts.any (fun e => pyEndsWith (pyLower path) e) then .image
  else if videoSortExts.any (fun e => pyEndsWith (pyLower path) e) then .video
  else .other

/-- Embedding of `get_media_date_taken`, with the two extractors as
oracles `img` and `vid` from the file path to their optional result. -/
def get_media_date_taken (img vid : String → Option PDateTime)
    (path : String) : Option PDateTime :=
  match classifyMedia path with
  | .image => img path
  | .video => vid path
  | .other => none

/-- A directory entry as seen by `process_directory`. -/
structure SEntry where
  name : String
  isDir : Bool
deriving DecidableEq, Repr

/-- The running state of `process_directory`: the names existing in the
destination subdirectory, the three counters, and the (source name,
destination name) pairs of the moves performed so far. -/
structure RenState where
  dest : List String
  processed : Nat
  movedCount : Nat
  withoutDate : Nat
  movedPairs : List (String × String)
deriving DecidableEq, Repr

/-- The `k`-th candidate destination name tried by the collision loop:
`stem ++ ext` for `k = 0` (the bare name), and
`stem ++ "_" ++ str(k) ++ ext` for the retries. -/
def candName (stem ext : String) (k : Nat) : String :=
  if k = 0 then stem ++ ext else stem ++ "_" ++ decRepr k ++ ext

/-- The collision loop of `process_directory`: starting from candidate
`k`, return the index of the first candidate name that does not already
exist in the destination; the fuel is sufficient because at most
`dest.length` distinct names exist. -/
def findFreeAux (dest : List String) (stem ext : String) : Nat → Nat → Nat
  | 0, k => k
  | fuel+1, k =>
    if candName stem ext k ∈ dest then findFreeAux dest stem ext fuel (k + 1)
    else k

/-- The destination name chosen for a file with formatted timestamp
`stem` and lowercased extension `ext`, given the current destination
contents: the bare name if free, else the first free suffixed name,
re-checking existence at every iteration. -/
def resolveName (dest : List String) (stem ext : String) : String :=
  candName stem ext (findFreeAux dest stem ext (dest.length + 1) 0)

/-- One iteration of the loop of `process_directory`: skip directories
and the destination subdirectory itself; otherwise count the entry as
processed and either move it under its resolved canonical name (date
found) or leave it in place (no date). -/
def processEntry (media : String → Option PDateTime) (targetSubdir : String)
    (st : RenState) (e : SEntry) : RenState :=
  if e.isDir || (e.name == targetSubdir) then st
  else
    match media e.name with
    | some dt =>
      let newName := resolveName st.dest (format_filename dt) (pyLower (splitExt e.name).2)
      { st with
        processed := st.processed + 1,
        dest := st.dest ++ [newName],
        movedCount := st.movedCount + 1,
        movedPairs := st.movedPairs ++ [(e.name, newName)] }
    | none =>
      { st with
        processed := st.processed + 1,
        withoutDate := st.withoutDate + 1 }

/-- The default destination subdirectory name of `process_directory`. -/
def defaultTargetSubdir : String := "dated_media"

/-- Embedding of `process_directory`: fold the per-entry step over the
source listing, starting from the pre-existing destination contents
`initDest` and zeroed counters.  The metadata lookup is
`get_media_date_taken` over the two extractor oracles. -/
def process_directory (img vid : String → Option PDateTime)
    (listing : List SEntry) (targetSubdir : String)
    (initDest : List String) : RenState :=
  listing.foldl (processEntry (get_media_date_taken img vid) targetSubdir)
    ⟨initDest, 0, 0, 0, []⟩

/-- The non-directory entries other than the destination subdirectory:
exactly those `process_directory` counts as processed. -/
def isProcessedEntry (targetSubdir : String) (e : SEntry) : Bool :=
  !e.isDir && !(e.name == targetSubdir)

/-- Modelled from the spec: the first recognized creation-date field in
priority order (`creation_date`, then `date_time_original`, then
`datetime_original`) whose value is already a full date-time value. -/
def firstDatetimePriority (m : HMeta) : Option PDateTime :=
  match m.creation_date, m.date_time_original, m.datetime_original with
  | some (.datetimeVal dt), _, _ => some dt
  | _, some (.datetimeVal dt), _ => some dt
  | _, _, some (.datetimeVal dt) => some dt
  | _, _, _ => none

/-! ### Helper lemmas: decimal rendering -/

theorem data_append (s t : String) : (s ++ t).data = s.data ++ t.data := rfl

theorem digitVal_digitChar : ∀ n < 10, digitVal (Nat.digitChar n) = n := by decide

theorem decVal_append_singleton (cs : List Char) (c : Char) :
    decVal (cs ++ [c]) = decVal cs * 10 + digitVal c := by
  simp [decVal, List.foldl_append]

theorem decVal_decReprAux : ∀ fuel n, n < fuel → decVal (decReprAux fuel n) = n := by
  intro fuel
  induction fuel with
  | zero => intro n h; omega
  | succ f ih =>
    intro n h
    by_cases h10 : n < 10
    · simp [decReprAux, h10, decVal, digitVal_digitChar n h10]
    · have hd : n / 10 < f := by
        have := Nat.div_lt_self (show 0 < n by omega) (show 1 < 10 by omega)
        omega
      simp [decReprAux, h10, decVal_append_singleton, ih _ hd,
        digitVal_digitChar (n % 10) (Nat.mod_lt n (by omega))]
      omega

theorem decRepr_injective : Function.Injective decRepr := by
  intro a b h
  have ha := decVal_decReprAux (a + 1) a (by omega)
  have hb := decVal_decReprAux (b + 1) b (by omega)
  have hd : (decRepr a).data = (decRepr b).data := by rw [h]
  simp only [decRepr] at hd
  rw [← ha, ← hb, hd]

theorem decRepr_length_pos (n : Nat) : 0 < (decRepr n).length := by
  show 0 < (decReprAux (n + 1) n).length
  by_cases h10 : n < 10 <;> simp [decReprAux, h10]

theorem mk_data_inj {l₁ l₂ : List Char} (h : (String.mk l₁).data = (String.mk l₂).data) :
    l₁ = l₂ := h

theorem candName_zero (stem ext : String) : candName stem ext 0 = stem ++ ext := by
  simp [candName]

theorem candName_pos (stem ext : String) {k : Nat} (hk : k ≠ 0) :
    candName stem ext k = stem ++ "_" ++ decRepr k ++ ext := by
  simp [candName, hk]

theorem candName_injective (stem ext : String) :
    Function.Injective (candName stem ext) := by
  intro a b h
  rcases Nat.eq_zero_or_pos a with ha | ha <;>
    rcases Nat.eq_zero_or_pos b with hb | hb
  · omega
  · exfalso
    subst ha
    rw [candName_zero, candName_pos stem ext (by omega : b ≠ 0)] at h
    have hlen := congrArg String.length h
    simp only [String.length_append] at hlen
    have hb1 := decRepr_length_pos b
    have hu : ("_" : String).length = 1 := rfl
    omega
  · exfalso
    subst hb
    rw [candName_zero, candName_pos stem ext (by omega : a ≠ 0)] at h
    have hlen := congrArg String.length h
    simp only [String.length_append] at hlen
    have ha1 := decRepr_length_pos a
    have hu : ("_" : String).length = 1 := rfl
    omega
  · rw [candName_pos stem ext (by omega : a ≠ 0),
      candName_pos stem ext (by omega : b ≠ 0)] at h
    have hd := congrArg String.data h
    simp only [data_append, List.append_assoc] at hd
    have h1 := List.append_cancel_left hd
    have h2 := List.append_cancel_left h1
    have h3 := List.append_cancel_right h2
    exact decRepr_injective (by cases ha' : decRepr a; cases hb' : decRepr b; simp_all)

/-! ### Helper lemmas: the duplicate remover -/

theorem movStep_some_true_iff (imgs : List String) (f : Entry) :
    movStep imgs f = some true ↔
      f.isDir = false ∧ extOf f.name = ".mov" ∧ baseOf f.name ∈ imgs ∧
        f.removeOk = true := by
  rcases f with ⟨n, d, r⟩
  cases d <;> cases r <;> by_cases hext : extOf n = ".mov" <;>
    by_cases hb : baseOf n ∈ imgs <;> simp [movStep, hext, hb]

theorem movStep_some_false_iff (imgs : List String) (f : Entry) :
    movStep imgs f = some false ↔
      f.isDir = false ∧ extOf f.name = ".mov" ∧
        (baseOf f.name ∉ imgs ∨ f.removeOk = false) := by
  rcases f with ⟨n, d, r⟩
  cases d <;> cases r <;> by_cases hext : extOf n = ".mov" <;>
    by_cases hb : baseOf n ∈ imgs <;> simp [movStep, hext, hb]

theorem movStep_congr {imgs₁ imgs₂ : List String}
    (h : ∀ x, x ∈ imgs₁ ↔ x ∈ imgs₂) (f : Entry) :
    movStep imgs₁ f = movStep imgs₂ f := by
  rcases f with ⟨n, d, r⟩
  cases d
  · by_cases hb : baseOf n ∈ imgs₁
    · have hb2 : baseOf n ∈ imgs₂ := (h _).mp hb
      simp [movStep, hb, hb2]
    · have hb2 : baseOf n ∉ imgs₂ := fun hh => hb ((h _).mpr hh)
      simp [movStep, hb, hb2]
  · simp [movStep]

theorem dedupPass_eq (imgs : List String) (files : List Entry) :
    dedupPass imgs files =
      (files.countP (fun f => decide (movStep imgs f = some true)),
       files.countP (fun f => decide (movStep imgs f = some false)),
       files.filterMap
         (fun f => if movStep imgs f = some true then some f.name else none)) := by
  induction files with
  | nil => rfl
  | cons f fs ih =>
    simp only [dedupPass, ih]
    rcases hms : movStep imgs f with _ | b
    · simp [List.countP_cons, hms, List.filterMap_cons]
    · cases b <;> simp [List.countP_cons, hms, List.filterMap_cons]

theorem mem_dedup_removedNames (imgs : List String) (files : List Entry)
    (n : String) :
    n ∈ (dedupPass imgs files).2.2 ↔
      ∃ f ∈ files, movStep imgs f = some true ∧ f.name = n := by
  rw [dedupPass_eq]
  simp only [List.mem_filterMap]
  constructor
  · rintro ⟨f, hf, hsome⟩
    by_cases h : movStep imgs f = some true
    · exact ⟨f, hf, h, by simpa [h] using hsome⟩
    · simp [h] at hsome
  · rintro ⟨f, hf, h, rfl⟩
    exact ⟨f, hf, by simp [h]⟩

theorem filterMap_filter_eq {α β : Type} (g : α → Option β) (p : α → Bool) :
    ∀ l : List α, (∀ a ∈ l, g a ≠ none → p a = true) →
      (l.filter p).filterMap g = l.filterMap g := by
  intro l
  induction l with
  | nil => intro _; rfl
  | cons a as ih =>
    intro h
    have ih' := ih fun x hx => h x (List.mem_cons_of_mem a hx)
    by_cases hp : p a = true
    · simp [List.filter_cons, hp, List.filterMap_cons, ih']
    · have hga : g a = none := by
        by_contra hc
        exact hp (h a (List.mem_cons_self a as) hc)
      simp [List.filter_cons, hp, List.filterMap_cons, hga, ih']

theorem removedNames_are_movs (files : List Entry) (n : String)
    (h : n ∈ (remove_duplicate_mov_files files).removedNames) :
    extOf n = ".mov" := by
  have := (mem_dedup_removedNames (imageBaseNames files) files n).mp h
  rcases this with ⟨f, _, hstep, rfl⟩
  exact ((movStep_some_true_iff _ f).mp hstep).2.1

theorem imageBaseNames_survivors (files : List Entry) :
    imageBaseNames (remove_duplicate_mov_files files).survivors =
      imageBaseNames files := by
  apply filterMap_filter_eq
  intro f hf hg
  have himg : extOf f.name ∈ imageExtensions := by
    by_contra hc
    rcases f with ⟨n, d, r⟩
    cases d <;> simp [imgName, hc] at hg
  rw [decide_eq_true_iff]
  intro hdel
  have hmov : extOf f.name = ".mov" := removedNames_are_movs files f.name hdel
  rw [hmov] at himg
  simp [imageExtensions] at himg

theorem movStep_true_bool (imgs : List String) (g : Entry) :
    decide (movStep imgs g = some true) =
      (!g.isDir && (extOf g.name == ".mov") &&
        decide (baseOf g.name ∈ imgs) && g.removeOk) := by
  rcases g with ⟨n, d, r⟩
  cases d <;> cases r <;> by_cases hext : extOf n = ".mov" <;>
    by_cases hb : baseOf n ∈ imgs <;> simp [movStep, hext, hb]

theorem movStep_false_bool (imgs : List String) (g : Entry) :
    decide (movStep imgs g = some false) =
      (!g.isDir && (extOf g.name == ".mov") &&
        (!(decide (baseOf g.name ∈ imgs)) || !g.removeOk)) := by
  rcases g with ⟨n, d, r⟩
  cases d <;> cases r <;> by_cases hext : extOf n = ".mov" <;>
    by_cases hb : baseOf n ∈ imgs <;> simp [movStep, hext, hb]

/-- C1: a non-directory `.mov` entry whose deletion would succeed is
removed exactly when its base name (case-sensitively) is among the base
names of the image files; otherwise it is kept and survives the run, and
the two counters count exactly the matching and the non-matching (or
undeletable) `.mov` files. -/
theorem dedup_mov_removed_iff (files : List Entry) (f : Entry)
    (hf : f ∈ files) (hdir : f.isDir = false) (hext : extOf f.name = ".mov")
    (hok : f.removeOk = true) :
    ((baseOf f.name ∈ imageBaseNames files →
        f.name ∈ (remove_duplicate_mov_files files).removedNames) ∧
      (baseOf f.name ∉ imageBaseNames files →
        f.name ∉ (remove_duplicate_mov_files files).removedNames ∧
          f ∈ (remove_duplicate_mov_files files).survivors)) ∧
    (remove_duplicate_mov_files files).removed =
      files.countP (fun g => !g.isDir && (extOf g.name == ".mov") &&
        decide (baseOf g.name ∈ imageBaseNames files) && g.removeOk) ∧
    (remove_duplicate_mov_files files).skipped =
      files.countP (fun g => !g.isDir && (extOf g.name == ".mov") &&
        (!(decide (baseOf g.name ∈ imageBaseNames files)) || !g.removeOk)) := by
  constructor
  · constructor
    · intro hb
      exact (mem_dedup_removedNames _ files f.name).mpr
        ⟨f, hf, (movStep_some_true_iff _ f).mpr ⟨hdir, hext, hb, hok⟩, rfl⟩
    · intro hb
      have hnot : f.name ∉ (remove_duplicate_mov_files files).removedNames := by
        intro hmem
        rcases (mem_dedup_removedNames _ files f.name).mp hmem with ⟨g, _, hstep, hgn⟩
        have := ((movStep_some_true_iff _ g).mp hstep).2.2.1
        rw [hgn] at this
        exact hb this
      refine ⟨hnot, List.mem_filter.mpr ⟨hf, ?_⟩⟩
      simpa using hnot
  · constructor
    · show (dedupPass (imageBaseNames files) files).1 = _
      rw [dedupPass_eq]
      exact congrArg files.countP (funext fun g => movStep_true_bool _ g)
    · show (dedupPass (imageBaseNames files) files).2.1 = _
      rw [dedupPass_eq]
      exact congrArg files.countP (funext fun g => movStep_false_bool _ g)

/-- C5: running the duplicate remover a second time on the directory
contents left behind by a first run removes zero files. -/
theorem dedup_idempotent (files : List Entry) :
    (remove_duplicate_mov_files
      (remove_duplicate_mov_files files).survivors).removed = 0 := by
  have himgs := imageBaseNames_survivors files
  show (dedupPass
    (imageBaseNames (remove_duplicate_mov_files files).survivors)
    (remove_duplicate_mov_files files).survivors).1 = 0
  rw [dedupPass_eq, List.countP_eq_zero]
  intro f hfS
  simp only [decide_eq_true_eq]
  intro hstep
  rw [himgs] at hstep
  have hfilter := List.mem_filter.mp hfS
  have hnot : f.name ∉ (remove_duplicate_mov_files files).removedNames := by
    simpa using hfilter.2
  exact hnot ((mem_dedup_removedNames _ files f.name).mpr ⟨f, hfilter.1, hstep, rfl⟩)

/-- C6: a `.mov` entry with a matching image whose deletion fails is
counted as kept, is not removed, still exists afterwards, and the rest of
the listing is processed exactly as it would be without that entry. -/
theorem dedup_deletion_failure_skipped (xs ys : List Entry) (f : Entry)
    (hdir : f.isDir = false) (hext : extOf f.name = ".mov")
    (hb : baseOf f.name ∈ imageBaseNames (xs ++ f :: ys))
    (hfail : f.removeOk = false)
    (hnodup : ((xs ++ f :: ys).map Entry.name).Nodup) :
    (remove_duplicate_mov_files (xs ++ f :: ys)).removed =
      (remove_duplicate_mov_files (xs ++ ys)).removed ∧
    (remove_duplicate_mov_files (xs ++ f :: ys)).skipped =
      (remove_duplicate_mov_files (xs ++ ys)).skipped + 1 ∧
    (remove_duplicate_mov_files (xs ++ f :: ys)).removedNames =
      (remove_duplicate_mov_files (xs ++ ys)).removedNames ∧
    f.name ∉ (remove_duplicate_mov_files (xs ++ f :: ys)).removedNames ∧
    f ∈ (remove_duplicate_mov_files (xs ++ f :: ys)).survivors := by
  have himgf : imgName f = none := by
    rcases f with ⟨n, d, r⟩
    cases d <;> simp [imgName] at hext ⊢
    intro hmem
    rw [hext] at hmem
    simp [imageExtensions] at hmem
  have himgs : imageBaseNames (xs ++ f :: ys) = imageBaseNames (xs ++ ys) := by
    simp [imageBaseNames, List.filterMap_append, List.filterMap_cons, himgf]
  have hstepf : movStep (imageBaseNames (xs ++ f :: ys)) f = some false :=
    (movStep_some_false_iff _ f).mpr ⟨hdir, hext, Or.inr hfail⟩
  have hstepf2 : movStep (imageBaseNames (xs ++ ys)) f = some false := by
    rw [← himgs]; exact hstepf
  have hnotrem : f.name ∉ (remove_duplicate_mov_files (xs ++ f :: ys)).removedNames := by
    intro hmem
    rcases (mem_dedup_removedNames _ _ f.name).mp hmem with ⟨g, hg, hstep, hgn⟩
    have hgf : g = f := by
      have hfmem : f ∈ xs ++ f :: ys := by simp
      exact List.inj_on_of_nodup_map hnodup hg hfmem hgn
    rw [hgf, hstepf] at hstep
    simp at hstep
  refine ⟨?_, ?_, ?_, hnotrem, ?_⟩
  · show (dedupPass _ (xs ++ f :: ys)).1 = (dedupPass _ (xs ++ ys)).1
    rw [dedupPass_eq, dedupPass_eq, himgs]
    simp [List.countP_append, List.countP_cons, hstepf2]
  · show (dedupPass _ (xs ++ f :: ys)).2.1 = (dedupPass _ (xs ++ ys)).2.1 + 1
    rw [dedupPass_eq, dedupPass_eq, himgs]
    simp [List.countP_append, List.countP_cons, hstepf2]
    omega
  · show (dedupPass _ (xs ++ f :: ys)).2.2 = (dedupPass _ (xs ++ ys)).2.2
    rw [dedupPass_eq, dedupPass_eq, himgs]
    simp [List.filterMap_append, List.filterMap_cons, hstepf2]
  · refine List.mem_filter.mpr ⟨by simp, ?_⟩
    simpa using hnotrem

/-- C9: the duplicate remover's outcome does not depend on the
enumeration order of the directory listing: any permutation of the
listing yields the same counts and the same multiset of removed files. -/
theorem dedup_order_independent (L₁ L₂ : List Entry) (h : L₁.Perm L₂) :
    (remove_duplicate_mov_files L₁).removed =
      (remove_duplicate_mov_files L₂).removed ∧
    (remove_duplicate_mov_files L₁).skipped =
      (remove_duplicate_mov_files L₂).skipped ∧
    (remove_duplicate_mov_files L₁).removedNames.Perm
      (remove_duplicate_mov_files L₂).removedNames := by
  have hperm : (imageBaseNames L₁).Perm (imageBaseNames L₂) := h.filterMap imgName
  have hstep : ∀ f, movStep (imageBaseNames L₁) f = movStep (imageBaseNames L₂) f :=
    movStep_congr fun x => hperm.mem_iff
  refine ⟨?_, ?_, ?_⟩
  · show (dedupPass _ L₁).1 = (dedupPass _ L₂).1
    rw [dedupPass_eq, dedupPass_eq]
    rw [show (fun f => decide (movStep (imageBaseNames L₁) f = some true)) =
      (fun f => decide (movStep (imageBaseNames L₂) f = some true)) from
      funext fun f => by rw [hstep f]]
    exact h.countP_eq _
  · show (dedupPass _ L₁).2.1 = (dedupPass _ L₂).2.1
    rw [dedupPass_eq, dedupPass_eq]
    rw [show (fun f => decide (movStep (imageBaseNames L₁) f = some false)) =
      (fun f => decide (movStep (imageBaseNames L₂) f = some false)) from
      funext fun f => by rw [hstep f]]
    exact h.countP_eq _
  · show ((dedupPass _ L₁).2.2).Perm ((dedupPass _ L₂).2.2)
    rw [dedupPass_eq, dedupPass_eq]
    rw [show (fun f => if movStep (imageBaseNames L₁) f = some true
        then some f.name else none) =
      (fun f => if movStep (imageBaseNames L₂) f = some true
        then some f.name else none) from
      funext fun f => by rw [hstep f]]
    exact h.filterMap _

/-! ### Helper lemmas: the renamer -/

theorem processEntry_skip (media : String → Option PDateTime) (subdir : String)
    (st : RenState) (e : SEntry) (h : e.isDir = true ∨ e.name = subdir) :
    processEntry media subdir st e = st := by
  unfold processEntry
  rcases h with h | h <;> simp [h]

theorem processEntry_noDate (media : String → Option PDateTime) (subdir : String)
    (st : RenState) (e : SEntry) (hdir : e.isDir = false) (hname : e.name ≠ subdir)
    (hm : media e.name = none) :
    processEntry media subdir st e =
      { st with processed := st.processed + 1,
                withoutDate := st.withoutDate + 1 } := by
  unfold processEntry
  simp [hdir, hname, hm]

theorem processEntry_withDate (media : String → Option PDateTime) (subdir : String)
    (st : RenState) (e : SEntry) (dt : PDateTime)
    (hdir : e.isDir = false) (hname : e.name ≠ subdir)
    (hm : media e.name = some dt) :
    processEntry media subdir st e =
      { st with
        processed := st.processed + 1,
        dest := st.dest ++
          [resolveName st.dest (format_filename dt) (pyLower (splitExt e.name).2)],
        movedCount := st.movedCount + 1,
        movedPairs := st.movedPairs ++
          [(e.name, resolveName st.dest (format_filename dt) (pyLower (splitExt e.name).2))] } := by
  unfold processEntry
  simp [hdir, hname, hm]

theorem foldl_counts (media : String → Option PDateTime) (subdir : String) :
    ∀ (listing : List SEntry) (st : RenState),
      (listing.foldl (processEntry media subdir) st).processed =
        st.processed + listing.countP (isProcessedEntry subdir) ∧
      (listing.foldl (processEntry media subdir) st).movedCount =
        st.movedCount + listing.countP
          (fun e => isProcessedEntry subdir e && (media e.name).isSome) ∧
      (listing.foldl (processEntry media subdir) st).withoutDate =
        st.withoutDate + listing.countP
          (fun e => isProcessedEntry subdir e && (media e.name).isNone) := by
  intro listing
  induction listing with
  | nil => intro st; simp
  | cons e rest ih =>
    intro st
    simp only [List.foldl_cons, List.countP_cons]
    by_cases hskip : e.isDir = true ∨ e.name = subdir
    · have hP : isProcessedEntry subdir e = false := by
        rcases hskip with h | h <;> simp [isProcessedEntry, h]
      rw [processEntry_skip media subdir st e hskip]
      obtain ⟨h1, h2, h3⟩ := ih st
      simp [h1, h2, h3, hP]
    · push_neg at hskip
      have hdir : e.isDir = false := by
        cases hde : e.isDir
        · rfl
        · exact absurd hde hskip.1
      have hP : isProcessedEntry subdir e = true := by
        simp [isProcessedEntry, hdir, hskip.2]
      rcases hm : media e.name with _ | dt
      · rw [processEntry_noDate media subdir st e hdir hskip.2 hm]
        obtain ⟨h1, h2, h3⟩ := ih
          { st with
            processed := st.processed + 1,
            withoutDate := st.withoutDate + 1 }
        refine ⟨?_, ?_, ?_⟩
        · rw [h1]; simp [hP]; omega
        · rw [h2]; simp [hP, hm]
        · rw [h3]; simp [hP, hm]; omega
      · rw [processEntry_withDate media subdir st e dt hdir hskip.2 hm]
        obtain ⟨h1, h2, h3⟩ := ih
          { st with
            processed := st.processed + 1,
            dest := st.dest ++
              [resolveName st.dest (format_filename dt) (pyLower (splitExt e.name).2)],
            movedCount := st.movedCount + 1,
            movedPairs := st.movedPairs ++
              [(e.name, resolveName st.dest (format_filename dt) (pyLower (splitExt e.name).2))] }
        refine ⟨?_, ?_, ?_⟩
        · rw [h1]; simp [hP]; omega
        · rw [h2]; simp [hP, hm]; omega
        · rw [h3]; simp [hP, hm]

theorem foldl_moves (media : String → Option PDateTime) (subdir : String) :
    ∀ (listing : List SEntry) (st : RenState),
      ∃ new : List (String × String),
        (listing.foldl (processEntry media subdir) st).movedPairs =
          st.movedPairs ++ new ∧
        (listing.foldl (processEntry media subdir) st).dest =
          st.dest ++ new.map Prod.snd ∧
        new.map Prod.fst =
          (listing.filter
            (fun e => isProcessedEntry subdir e && (media e.name).isSome)).map
              SEntry.name := by
  intro listing
  induction listing with
  | nil => intro st; exact ⟨[], by simp, by simp, by simp⟩
  | cons e rest ih =>
    intro st
    simp only [List.foldl_cons]
    by_cases hskip : e.isDir = true ∨ e.name = subdir
    · have hP : isProcessedEntry subdir e = false := by
        rcases hskip with h | h <;> simp [isProcessedEntry, h]
      rw [processEntry_skip media subdir st e hskip]
      obtain ⟨new, h1, h2, h3⟩ := ih st
      exact ⟨new, h1, h2, by simp [List.filter_cons, hP, h3]⟩
    · push_neg at hskip
      have hdir : e.isDir = false := by
        cases hde : e.isDir
        · rfl
        · exact absurd hde hskip.1
      have hP : isProcessedEntry subdir e = true := by
        simp [isProcessedEntry, hdir, hskip.2]
      rcases hm : media e.name with _ | dt
      · rw [processEntry_noDate media subdir st e hdir hskip.2 hm]
        obtain ⟨new, h1, h2, h3⟩ := ih
          { st with
            processed := st.processed + 1,
            withoutDate := st.withoutDate + 1 }
        refine ⟨new, by simpa using h1, by simpa using h2, ?_⟩
        simp [List.filter_cons, hP, hm, h3]
      · rw [processEntry_withDate media subdir st e dt hdir hskip.2 hm]
        obtain ⟨new, h1, h2, h3⟩ := ih
          { st with
            processed := st.processed + 1,
            dest := st.dest ++
              [resolveName st.dest (format_filename dt) (pyLower (splitExt e.name).2)],
            movedCount := st.movedCount + 1,
            movedPairs := st.movedPairs ++
              [(e.name, resolveName st.dest (format_filename dt) (pyLower (splitExt e.name).2))] }
        refine ⟨(e.name,
            resolveName st.dest (format_filename dt) (pyLower (splitExt e.name).2)) :: new,
          ?_, ?_, ?_⟩
        · rw [h1]; simp
        · rw [h2]; simp
        · simp [List.filter_cons, hP, hm, h3]

theorem countP_and_split {α : Type} (p q : α → Bool) (l : List α) :
    l.countP p =
      l.countP (fun a => p a && q a) + l.countP (fun a => p a && !q a) := by
  induction l with
  | nil => rfl
  | cons a as ih =>
    simp only [List.countP_cons]
    cases hpa : p a <;> cases hqa : q a <;> simp [hpa, hqa] <;> omega

/-- C10: after a run of the renamer the counters satisfy
`files_processed = files_moved + files_without_date`, and every
non-directory entry other than the destination subdirectory is counted
exactly once as processed. -/
theorem renamer_counter_invariant (img vid : String → Option PDateTime)
    (listing : List SEntry) (subdir : String) (initDest : List String) :
    (process_directory img vid listing subdir initDest).processed =
      (process_directory img vid listing subdir initDest).movedCount +
        (process_directory img vid listing subdir initDest).withoutDate ∧
    (process_directory img vid listing subdir initDest).processed =
      listing.countP (isProcessedEntry subdir) := by
  obtain ⟨h1, h2, h3⟩ := foldl_counts (get_media_date_taken img vid) subdir listing
    ⟨initDest, 0, 0, 0, []⟩
  unfold process_directory
  constructor
  · rw [h1, h2, h3]
    simp only [Nat.zero_add]
    rw [countP_and_split (isProcessedEntry subdir)
      (fun e => (get_media_date_taken img vid e.name).isSome) listing]
    congr 1
    apply List.countP_congr
    intro e _
    cases hm : get_media_date_taken img vid e.name <;> simp [hm]
  · rw [h1]; simp

/-- C7: a file whose metadata yields no timestamp is never the source of
a move (so the destination gains no entry derived from it), the
without-date counter counts exactly such files, and every destination
entry added by the run comes from a moved pair. -/
theorem renamer_no_date_left_in_place (img vid : String → Option PDateTime)
    (listing : List SEntry) (subdir : String) (initDest : List String) (e : SEntry)
    (he : e ∈ listing) (hdir : e.isDir = false) (hname : e.name ≠ subdir)
    (hm : get_media_date_taken img vid e.name = none) :
    (process_directory img vid listing subdir initDest).withoutDate =
      listing.countP (fun x => isProcessedEntry subdir x &&
        (get_media_date_taken img vid x.name).isNone) ∧
    0 < (process_directory img vid listing subdir initDest).withoutDate ∧
    (∀ pr ∈ (process_directory img vid listing subdir initDest).movedPairs,
      pr.1 ≠ e.name) ∧
    (process_directory img vid listing subdir initDest).dest =
      initDest ++
        ((process_directory img vid listing subdir initDest).movedPairs).map
          Prod.snd := by
  obtain ⟨_, _, h3⟩ := foldl_counts (get_media_date_taken img vid) subdir listing
    ⟨initDest, 0, 0, 0, []⟩
  obtain ⟨new, hmp, hdest, hfst⟩ := foldl_moves (get_media_date_taken img vid)
    subdir listing ⟨initDest, 0, 0, 0, []⟩
  have hP : isProcessedEntry subdir e = true := by
    simp [isProcessedEntry, hdir, hname]
  unfold process_directory
  refine ⟨by rw [h3]; simp, ?_, ?_, ?_⟩
  · rw [h3]
    simp only [RenState.withoutDate, Nat.zero_add]
    apply List.countP_pos_iff.mpr
    exact ⟨e, he, by simp [hP, hm]⟩
  · intro pr hpr heq
    rw [hmp] at hpr
    simp only [List.nil_append] at hpr
    have hmem : pr.1 ∈ new.map Prod.fst := List.mem_map.mpr ⟨pr, hpr, rfl⟩
    rw [hfst] at hmem
    rcases List.mem_map.mp hmem with ⟨x, hx, hxname⟩
    have hxf := (List.mem_filter.mp hx).2
    rw [hxname, heq] at hxf
    simp [hm] at hxf
  · rw [hmp, hdest]
    simp

theorem findFreeAux_spec (dest : List String) (stem ext : String) :
    ∀ (fuel k i : Nat), k ≤ i → i - k < fuel →
      (∀ j, k ≤ j → j < i → candName stem ext j ∈ dest) →
      candName stem ext i ∉ dest →
      findFreeAux dest stem ext fuel k = i := by
  intro fuel
  induction fuel with
  | zero => intro k i h1 h2 _ _; omega
  | succ fu ih =>
    intro k i hki hfuel hall hfree
    by_cases hk : k = i
    · subst hk
      unfold findFreeAux
      simp [hfree]
    · have hklt : k < i := by omega
      unfold findFreeAux
      rw [if_pos (hall k le_rfl hklt)]
      exact ih (k + 1) i (by omega) (by omega)
        (fun j hj1 hj2 => hall j (by omega) hj2) hfree

theorem resolveName_spec (dest : List String) (stem ext : String) (i : Nat)
    (hle : i ≤ dest.length)
    (hall : ∀ j, j < i → candName stem ext j ∈ dest)
    (hfree : candName stem ext i ∉ dest) :
    resolveName dest stem ext = candName stem ext i := by
  unfold resolveName
  rw [findFreeAux_spec dest stem ext (dest.length + 1) 0 i (by omega) (by omega)
    (fun j _ hj => hall j hj) hfree]

theorem foldl_same_stem (media : String → Option PDateTime)
    (subdir stem ext : String) (init : List String) :
    ∀ (listing : List SEntry) (i : Nat) (st : RenState),
      st.dest = init ++ (List.range i).map (candName stem ext) →
      (∀ k, k < i + listing.length → candName stem ext k ∉ init) →
      (∀ e ∈ listing, e.isDir = false ∧ e.name ≠ subdir ∧
        ∃ dt, media e.name = some dt ∧ format_filename dt = stem ∧
          pyLower (splitExt e.name).2 = ext) →
      (listing.foldl (processEntry media subdir) st).dest =
        init ++ (List.range (i + listing.length)).map (candName stem ext) ∧
      (listing.foldl (processEntry media subdir) st).movedPairs.map Prod.snd =
        (st.movedPairs.map Prod.snd) ++
          (List.range' i listing.length).map (candName stem ext) := by
  intro listing
  induction listing with
  | nil => intro i st hdest _ _; simp [hdest]
  | cons e rest ih =>
    intro i st hdest hfree hent
    obtain ⟨hdir, hname, dt, hm, hstem, hext⟩ := hent e (by simp)
    rw [List.foldl_cons, processEntry_withDate media subdir st e dt hdir hname hm]
    have hres : resolveName st.dest (format_filename dt) (pyLower (splitExt e.name).2) =
        candName stem ext i := by
      rw [hstem, hext, hdest]
      apply resolveName_spec
      · simp
      · intro j hj
        exact List.mem_append_right _ (List.mem_map.mpr ⟨j, List.mem_range.mpr hj, rfl⟩)
      · intro hmem
        rcases List.mem_append.mp hmem with hin | hin
        · exact hfree i (by simp) hin
        · rcases List.mem_map.mp hin with ⟨j, hjr, hje⟩
          have := candName_injective stem ext hje
          rw [List.mem_range] at hjr
          omega
    rw [hres]
    have hnew : (init ++ (List.range i).map (candName stem ext)) ++
        [candName stem ext i] =
        init ++ (List.range (i + 1)).map (candName stem ext) := by
      rw [List.range_succ]
      simp
    obtain ⟨ha, hb⟩ := ih (i + 1)
      { st with
        processed := st.processed + 1,
        dest := st.dest ++ [candName stem ext i],
        movedCount := st.movedCount + 1,
        movedPairs := st.movedPairs ++ [(e.name, candName stem ext i)] }
      (by simp only []; rw [hdest]; exact hnew)
      (fun k hk => hfree k (by simp at hk ⊢; omega))
      (fun x hx => hent x (by simp [hx]))
    constructor
    · rw [ha]
      have : i + 1 + rest.length = i + (e :: rest).length := by simp; omega
      rw [this]
    · rw [hb]
      have hr : List.range' i (e :: rest).length =
          i :: List.range' (i + 1) rest.length := rfl
      rw [hr]
      simp

/-- C2: when every processed file of a run maps to the same formatted
timestamp `stem` and the same lowercased extension `ext`, and none of the
candidate names pre-exists in the destination, the first file receives
the bare name `stem ++ ext` and the `k`-th retry receives
`stem ++ "_" ++ str(k) ++ ext`, giving the `N` files the `N` pairwise
distinct names numbered `0` to `N - 1`. -/
theorem renamer_collision_suffixes (img vid : String → Option PDateTime)
    (listing : List SEntry) (subdir stem ext : String) (initDest : List String)
    (N : Nat) (hlen : listing.length = N)
    (hfree : ∀ k, k < N → candName stem ext k ∉ initDest)
    (hent : ∀ e ∈ listing, e.isDir = false ∧ e.name ≠ subdir ∧
      ∃ dt, get_media_date_taken img vid e.name = some dt ∧
        format_filename dt = stem ∧ pyLower (splitExt e.name).2 = ext) :
    (process_directory img vid listing subdir initDest).movedPairs.map Prod.snd =
      (List.range N).map (candName stem ext) ∧
    ((List.range N).map (candName stem ext)).Nodup ∧
    candName stem ext 0 = stem ++ ext ∧
    (∀ k, k ≠ 0 → candName stem ext k = stem ++ "_" ++ decRepr k ++ ext) := by
  subst hlen
  obtain ⟨_, h2⟩ := foldl_same_stem (get_media_date_taken img vid) subdir stem ext
    initDest listing 0 ⟨initDest, 0, 0, 0, []⟩ (by simp)
    (fun k hk => hfree k (by simpa using hk)) hent
  refine ⟨?_, (List.nodup_range _).map (candName_injective stem ext),
    candName_zero stem ext, fun k hk => candName_pos stem ext hk⟩
  unfold process_directory
  rw [h2]
  simp [List.range_eq_range']

/-! ### Helper lemmas: the metadata dispatch and the extractors -/

theorem no_cross_suffix_table :
    (imageSortExts.all (fun ei => videoSortExts.all (fun ev =>
      !(ei.data.isSuffixOf ev.data) && !(ev.data.isSuffixOf ei.data)))) = true := by
  decide

theorem pyEndsWith_iff (s suf : String) :
    pyEndsWith s suf = true ↔ suf.data <:+ s.data := by
  unfold pyEndsWith
  exact List.isSuffixOf_iff_suffix

theorem image_video_suffix_disjoint (s : String)
    (hv : ∃ e ∈ videoSortExts, pyEndsWith s e = true) :
    imageSortExts.any (fun e => pyEndsWith s e) = false := by
  rcases hv with ⟨ev, hev, hendv⟩
  rw [List.any_eq_false]
  intro ei hei hendi
  have hsufv : ev.data <:+ s.data := (pyEndsWith_iff s ev).mp hendv
  have hsufi : ei.data <:+ s.data := (pyEndsWith_iff s ei).mp hendi
  have htab := List.all_eq_true.mp
    (List.all_eq_true.mp no_cross_suffix_table ei hei) ev hev
  simp only [Bool.and_eq_true, Bool.not_eq_true'] at htab
  rcases List.suffix_or_suffix_of_suffix hsufi hsufv with hh | hh
  · rw [(List.isSuffixOf_iff_suffix).mpr hh] at htab
    exact absurd htab.1 (by simp)
  · rw [(List.isSuffixOf_iff_suffix).mpr hh] at htab
    exact absurd htab.2 (by simp)

/-- C3: the renamer's metadata dispatch is purely by lowercased filename
suffix: an image suffix routes to the image extractor, a video suffix to
the video extractor, and anything else yields no timestamp without
consulting either extractor. -/
theorem media_dispatch_by_suffix (img vid : String → Option PDateTime)
    (path : String) :
    ((∃ e ∈ imageSortExts, pyEndsWith (pyLower path) e = true) →
      get_media_date_taken img vid path = img path) ∧
    ((∃ e ∈ videoSortExts, pyEndsWith (pyLower path) e = true) →
      get_media_date_taken img vid path = vid path) ∧
    ((∀ e ∈ imageSortExts ++ videoSortExts, pyEndsWith (pyLower path) e = false) →
      get_media_date_taken img vid path = none) := by
  refine ⟨?_, ?_, ?_⟩
  · rintro ⟨e, he, hend⟩
    have hany : imageSortExts.any (fun e => pyEndsWith (pyLower path) e) = true :=
      List.any_eq_true.mpr ⟨e, he, hend⟩
    simp [get_media_date_taken, classifyMedia, hany]
  · intro hv
    have hanyv : videoSortExts.any (fun e => pyEndsWith (pyLower path) e) = true := by
      rcases hv with ⟨e, he, hend⟩
      exact List.any_eq_true.mpr ⟨e, he, hend⟩
    have hanyi := image_video_suffix_disjoint (pyLower path) hv
    simp [get_media_date_taken, classifyMedia, hanyi, hanyv]
  · intro hnone
    have hanyi : imageSortExts.any (fun e => pyEndsWith (pyLower path) e) = false := by
      rw [List.any_eq_false]
      intro e he
      simp [hnone e (List.mem_append_left _ he)]
    have hanyv : videoSortExts.any (fun e => pyEndsWith (pyLower path) e) = false := by
      rw [List.any_eq_false]
      intro e he
      simp [hnone e (List.mem_append_right _ he)]
    simp [get_media_date_taken, classifyMedia, hanyi, hanyv]

/-- C8: the video extractor inspects `creation_date`, then
`date_time_original`, then `datetime_original`, in that order, and
returns the first of them that exists and is already a date-time value;
absent or unparseable metadata yields no timestamp. -/
theorem video_field_priority (load : Except PyExc (Option HMeta)) :
    (∀ m, load = .ok (some m) →
      get_video_date_taken load = .ok (firstDatetimePriority m)) ∧
    (load = .ok none → get_video_date_taken load = .ok none) ∧
    (∀ e, load = .error e → get_video_date_taken load = .ok none) := by
  refine ⟨?_, ?_, ?_⟩
  · rintro m rfl
    show Except.ok (fieldSearch m videoDateFields) = _
    congr 1
    rcases m with ⟨cd, d1, d2⟩
    rcases cd with _ | (c1 | _) <;> rcases d1 with _ | (c2 | _) <;>
      rcases d2 with _ | (c3 | _) <;> rfl
  · rintro rfl; rfl
  · rintro e rfl; rfl

/-- The image extractor may let an exception escape: a failure of the
primary decoding path whose type is not among the four caught classes
(here a `ValueError` raised while reading the EXIF block) propagates to
the caller instead of yielding "no timestamp". -/
theorem image_extractor_raises_on_uncaught :
    get_image_date_taken (Except.error PyExc.valueError)
      (Except.ok ⟨none, none⟩) = Except.error PyExc.valueError := rfl

/-- C4 (amended): the video extractor never raises; the image extractor
returns an optional timestamp (never raises) whenever its primary
decoding path succeeds or fails with one of the four caught exception
types, and propagates any other exception type unchanged; a file whose
metadata lookup yields no timestamp is only counted, the state of the
destination and the move list are untouched. -/
theorem extractor_failures_yield_none (primary : Except PyExc (Option ExifData))
    (piexifLoad : Except PyExc PiexifData) (load : Except PyExc (Option HMeta))
    (media : String → Option PDateTime) (subdir : String) (st : RenState)
    (e : SEntry) :
    ((∃ o, primary = .ok o) →
      ∃ r, get_image_date_taken primary piexifLoad = .ok r) ∧
    (∀ exc, primary = .error exc → primaryCaught exc = true →
      ∃ r, get_image_date_taken primary piexifLoad = .ok r) ∧
    (∀ exc, primary = .error exc → primaryCaught exc = false →
      get_image_date_taken primary piexifLoad = .error exc) ∧
    (∃ r, get_video_date_taken load = .ok r) ∧
    (e.isDir = false → e.name ≠ subdir → media e.name = none →
      processEntry media subdir st e =
        { st with
          processed := st.processed + 1,
          withoutDate := st.withoutDate + 1 }) := by
  refine ⟨?_, ?_, ?_, ?_, ?_⟩
  · rintro ⟨o, rfl⟩
    rcases o with _ | exif
    · exact ⟨none, rfl⟩
    · rcases exif with ⟨dto, dtt⟩
      rcases dto with _ | v
      · rcases dtt with _ | v
        · exact ⟨none, rfl⟩
        · exact ⟨parseDateVal v, rfl⟩
      · exact ⟨parseDateVal v, rfl⟩
  · rintro exc rfl hcaught
    show ∃ r, (if primaryCaught exc then _ else Except.error exc) = Except.ok r
    rw [if_pos hcaught]
    rcases piexifLoad with exc2 | p
    · exact ⟨none, rfl⟩
    · rcases p with ⟨pdto, pz⟩
      rcases pdto with _ | v
      · rcases pz with _ | v
        · exact ⟨none, rfl⟩
        · exact ⟨parseDateVal v, rfl⟩
      · exact ⟨parseDateVal v, rfl⟩
  · rintro exc rfl hun
    show (if primaryCaught exc then _ else Except.error exc) = Except.error exc
    rw [if_neg (by simp [hun])]
  · rcases load with exc | o
    · exact ⟨none, rfl⟩
    · rcases o with _ | m
      · exact ⟨none, rfl⟩
      · exact ⟨fieldSearch m videoDateFields, rfl⟩
  · intro hdir hname hm
    exact processEntry_noDate media subdir st e hdir hname hm

/-! ### Concrete witnesses -/

theorem dedup_mov_removed_iff_witness :
    "a.mov" ∈ (remove_duplicate_mov_files
      [⟨"a.jpg", false, true⟩, ⟨"a.mov", false, true⟩]).removedNames :=
  (dedup_mov_removed_iff [⟨"a.jpg", false, true⟩, ⟨"a.mov", false, true⟩]
    ⟨"a.mov", false, true⟩ (by decide) (by decide) (by decide) (by decide)).1.1
    (by decide)

theorem renamer_collision_suffixes_witness :
    (process_directory (fun _ => some ⟨2023, 5, 1, 10, 0, 0⟩) (fun _ => none)
        [⟨"a.jpg", false⟩, ⟨"b.jpg", false⟩, ⟨"c.jpg", false⟩]
        "dated_media" []).movedPairs.map Prod.snd =
      (List.range 3).map (candName "20230501_100000" ".jpg") ∧
    ((List.range 3).map (candName "20230501_100000" ".jpg")).Nodup ∧
    candName "20230501_100000" ".jpg" 0 = "20230501_100000" ++ ".jpg" ∧
    (∀ k, k ≠ 0 → candName "20230501_100000" ".jpg" k =
      "20230501_100000" ++ "_" ++ decRepr k ++ ".jpg") :=
  renamer_collision_suffixes (fun _ => some ⟨2023, 5, 1, 10, 0, 0⟩) (fun _ => none)
    [⟨"a.jpg", false⟩, ⟨"b.jpg", false⟩, ⟨"c.jpg", false⟩] "dated_media"
    "20230501_100000" ".jpg" [] 3 (by decide) (by decide)
    (by
      intro e he
      fin_cases he <;>
        exact ⟨by decide, by decide, ⟨2023, 5, 1, 10, 0, 0⟩,
          by decide, by decide, by decide⟩)

theorem media_dispatch_by_suffix_witness :
    get_media_date_taken (fun _ => none)
      (fun _ => some ⟨2020, 1, 2, 3, 4, 5⟩) "Clip.MOV" =
      (fun _ => some (⟨2020, 1, 2, 3, 4, 5⟩ : PDateTime)) "Clip.MOV" :=
  (media_dispatch_by_suffix (fun _ => none)
    (fun _ => some ⟨2020, 1, 2, 3, 4, 5⟩) "Clip.MOV").2.1
    ⟨".mov", by decide, by decide⟩

theorem extractor_failures_yield_none_witness :
    (∃ r, get_image_date_taken (Except.error PyExc.osError)
        (Except.ok ⟨some (DateVal.wellFormed ⟨2021, 6, 7, 8, 9, 10⟩), none⟩) =
      Except.ok r) ∧
    processEntry (fun _ => none) "dated_media" ⟨[], 0, 0, 0, []⟩
        ⟨"clip.mp4", false⟩ =
      ⟨[], 1, 0, 1, []⟩ :=
  ⟨(extractor_failures_yield_none (Except.error PyExc.osError)
      (Except.ok ⟨some (DateVal.wellFormed ⟨2021, 6, 7, 8, 9, 10⟩), none⟩)
      (Except.ok none) (fun _ => none) "dated_media" ⟨[], 0, 0, 0, []⟩
      ⟨"clip.mp4", false⟩).2.1 PyExc.osError rfl (by decide),
    (extractor_failures_yield_none (Except.error PyExc.osError)
      (Except.ok ⟨some (DateVal.wellFormed ⟨2021, 6, 7, 8, 9, 10⟩), none⟩)
      (Except.ok none) (fun _ => none) "dated_media" ⟨[], 0, 0, 0, []⟩
      ⟨"clip.mp4", false⟩).2.2.2.2 (by decide) (by decide) rfl⟩

theorem dedup_deletion_failure_skipped_witness :
    (remove_duplicate_mov_files
        [⟨"a.jpg", false, true⟩, ⟨"a.mov", false, false⟩]).skipped =
      (remove_duplicate_mov_files [⟨"a.jpg", false, true⟩]).skipped + 1 ∧
    "a.mov" ∉ (remove_duplicate_mov_files
      [⟨"a.jpg", false, true⟩, ⟨"a.mov", false, false⟩]).removedNames :=
  ⟨(dedup_deletion_failure_skipped [⟨"a.jpg", false, true⟩] []
      ⟨"a.mov", false, false⟩ (by decide) (by decide) (by decide) (by decide)
      (by decide)).2.1,
    (dedup_deletion_failure_skipped [⟨"a.jpg", false, true⟩] []
      ⟨"a.mov", false, false⟩ (by decide) (by decide) (by decide) (by decide)
      (by decide)).2.2.2.1⟩

theorem renamer_no_date_left_in_place_witness :
    0 < (process_directory
      (fun n => if n = "img.png" then some ⟨2022, 1, 15, 8, 30, 0⟩ else none)
      (fun _ => none) [⟨"clip.mp4", false⟩, ⟨"img.png", false⟩]
      "dated_media" []).withoutDate :=
  (renamer_no_date_left_in_place
    (fun n => if n = "img.png" then some ⟨2022, 1, 15, 8, 30, 0⟩ else none)
    (fun _ => none) [⟨"clip.mp4", false⟩, ⟨"img.png", false⟩] "dated_media" []
    ⟨"clip.mp4", false⟩ (by decide) (by decide) (by decide) (by decide)).2.1

theorem video_field_priority_witness :
    get_video_date_taken (Except.ok (some (⟨some HField.otherVal,
        some (HField.datetimeVal ⟨2020, 2, 2, 2, 2, 2⟩), none⟩ : HMeta))) =
      Except.ok (firstDatetimePriority ⟨some HField.otherVal,
        some (HField.datetimeVal ⟨2020, 2, 2, 2, 2, 2⟩), none⟩) :=
  (video_field_priority (Except.ok (some (⟨some HField.otherVal,
    some (HField.datetimeVal ⟨2020, 2, 2, 2, 2, 2⟩), none⟩ : HMeta)))).1 _ rfl

theorem dedup_order_independent_witness :
    (remove_duplicate_mov_files
        [⟨"a.jpg", false, true⟩, ⟨"a.mov", false, true⟩]).removed =
      (remove_duplicate_mov_files
        [⟨"a.mov", false, true⟩, ⟨"a.jpg", false, true⟩]).removed :=
  (dedup_order_independent [⟨"a.jpg", false, true⟩, ⟨"a.mov", false, true⟩]
    [⟨"a.mov", false, true⟩, ⟨"a.jpg", false, true⟩] (by decide)).1

end ExifTools
